import Mathlib

/-!
Verification of the geohash codec in `geohash.py` (class `Geohash`).

The Python class works on IEEE doubles; every number the algorithms touch
(range bounds, midpoints, normalized angles) is obtained from the initial
integral bounds by additions, halvings and multiplications by small
integers, so we embed the arithmetic in `ℚ`.  Python's `%` on numbers is
the floor-mod (`x - m * floor (x / m)`), and `//` is floor division; both
are written out explicitly below.  Strings are embedded as `List Char`,
Python `int` bit streams as `ℕ`, and raised exceptions as `Except` errors.
-/

set_option maxRecDepth 16000

attribute [local semireducible] Rat.mul Rat.add Rat.sub Rat.inv

namespace Geohash

/-- The class constant `_BASE_32` (geohash.py line 22). -/
def _BASE_32_STR : String := "0123456789bcdefghjkmnpqrstuvwxyz"

/-- The constant `_BASE_32` as a character list; also plays the role of `_BASE_32_RESULT`. -/
def BASE_32 : List Char := _BASE_32_STR.toList

/-- Embeds `Geohash._int_to_base_32` (line 466): index into the alphabet.  The Python
list subscript raises for `v ≥ 32`; call sites only pass `v < 32`, where the
default character is never returned. -/
def _int_to_base_32 (v : Nat) : Char := BASE_32.getD v '?'

/-- Embeds `Geohash._base_32_to_int` (line 470): position of `c` in the alphabet via
the `_BASE_32_TABLE` dict.  Python raises `KeyError` outside the alphabet;
call sites are reached only after `_validate_geohash`. -/
def _base_32_to_int (c : Char) : Nat := BASE_32.indexOf c

/-- Embeds `Geohash._normalize_angle_180` (lines 450-454).  `lng %= 360` is Python's
floor-mod; the final line is the chained conditional expression of line 454. -/
def _normalize_angle_180 (lng : ℚ) : ℚ :=
  let lng_is_negative := lng < 0
  let m : ℚ := lng - 360 * ((lng / 360).floor : ℚ)
  if m > 180 then m - 360 else if lng_is_negative then -m else m

/-- Embeds `Geohash._normalize_lat` (lines 456-459). -/
def _normalize_lat (lat : ℚ) : ℚ :=
  let l := _normalize_angle_180 lat
  if l > 90 then 180 - l else if l < -90 then -180 - l else l

/-- The loop state of `Geohash._encode` (lines 252-256): the four interval
bounds, the accumulated `bit_code` and the `is_lng` flag. -/
structure EncodeState where
  lngMin : ℚ
  lngMax : ℚ
  latMin : ℚ
  latMax : ℚ
  bitCode : Nat
  isLng : Bool
deriving DecidableEq, Repr

/-- One iteration of the `for _ in range(total_bits)` loop of `_encode`
(lines 258-275).  `bit_code << 1` is `2 * bit_code` and
`(bit_code << 1) | 1` is `2 * bit_code + 1`. -/
def encodeStep (lat lng : ℚ) (s : EncodeState) : EncodeState :=
  if s.isLng then
    let mid := (s.lngMin + s.lngMax) / 2
    if lng < mid then
      { s with bitCode := 2 * s.bitCode, lngMax := mid, isLng := false }
    else
      { s with bitCode := 2 * s.bitCode + 1, lngMin := mid, isLng := false }
  else
    let mid := (s.latMin + s.latMax) / 2
    if lat < mid then
      { s with bitCode := 2 * s.bitCode, latMax := mid, isLng := true }
    else
      { s with bitCode := 2 * s.bitCode + 1, latMin := mid, isLng := true }

/-- Running `n` iterations of the `_encode` loop. -/
def encodeLoop (lat lng : ℚ) : Nat → EncodeState → EncodeState
  | 0, s => s
  | n + 1, s => encodeLoop lat lng n (encodeStep lat lng s)

/-- The initial state of `_encode` (lines 252-256). -/
def encodeInit : EncodeState :=
  { lngMin := -180, lngMax := 180, latMin := -90, latMax := 90,
    bitCode := 0, isLng := true }

/-- Embeds `Geohash._encode` (lines 240-281).  After `length * 5` loop iterations the
accumulated `bit_code` is cut into 5-bit chunks, most significant first
(`for i in reversed(range(length))`); `& 0b11111` is `% 32`. -/
def _encode (lat lng : ℚ) (length : Nat) : List Char :=
  let s := encodeLoop lat lng (length * 5) encodeInit
  (List.range length).reverse.map
    (fun i => _int_to_base_32 ((s.bitCode >>> (5 * i)) % 32))

/-- Embeds `Geohash._geohash_to_bits` (lines 478-496). -/
def _geohash_to_bits (geohash : List Char) : Nat :=
  geohash.foldl (fun bitstream c => (bitstream <<< 5) ||| _base_32_to_int c) 0

/-- The loop state of `Geohash.decode_to_interval` (lines 324-333): the two
mutable range lists and the `is_even` flag. -/
structure DecodeState where
  latMin : ℚ
  latMax : ℚ
  lngMin : ℚ
  lngMax : ℚ
  isEven : Bool
deriving DecidableEq, Repr

/-- One iteration of `decode_to_interval`'s bit loop (lines 334-343), handling
the bit at `bitPosition`; `& 1` is `% 2`. -/
def decodeStep (bitstream : Nat) (s : DecodeState) (bitPosition : Nat) : DecodeState :=
  let bit := (bitstream >>> bitPosition) % 2
  if s.isEven then
    let mid := (s.lngMin + s.lngMax) / 2
    if bit = 1 then { s with lngMin := mid, isEven := false }
    else { s with lngMax := mid, isEven := false }
  else
    let mid := (s.latMin + s.latMax) / 2
    if bit = 1 then { s with latMin := mid, isEven := true }
    else { s with latMax := mid, isEven := true }

/-- Models `for bit_position in range(num_bits - 1, -1, -1)`: process bit positions
`p - 1, p - 2, ..., 0`, descending. -/
def decodeLoop (bitstream : Nat) : Nat → DecodeState → DecodeState
  | 0, s => s
  | p + 1, s => decodeLoop bitstream p (decodeStep bitstream s p)

/-- The initial ranges of `decode_to_interval` (lines 325-326). -/
def decodeInit : DecodeState :=
  { latMin := -90, latMax := 90, lngMin := -180, lngMax := 180, isEven := true }

/-- Embeds `Geohash.decode_to_interval` (lines 283-345), on an explicit geohash
string (the method reads `self._geohash`).  Returns
`((lat_min, lat_max), (lng_min, lng_max))`. -/
def decode_to_interval (geohash : List Char) : (ℚ × ℚ) × (ℚ × ℚ) :=
  let s := decodeLoop (_geohash_to_bits geohash) (geohash.length * 5) decodeInit
  ((s.latMin, s.latMax), (s.lngMin, s.lngMax))

/-- Embeds `Geohash.decode` (lines 347-383): the midpoints of the decoded intervals,
`(lat, lng)`. -/
def decode (geohash : List Char) : ℚ × ℚ :=
  let r := decode_to_interval geohash
  ((r.1.1 + r.1.2) / 2, (r.2.1 + r.2.2) / 2)

/-- The encode pipeline of `__init__` (lines 47-49) and `encode_with_lat_lng`
(lines 236-238): normalize both angles, then bisect. -/
def encode (lat lng : ℚ) (length : Nat) : List Char :=
  _encode (_normalize_lat lat) (_normalize_angle_180 lng) length

/-- Python's `range(a, b)` over `ℤ`. -/
def rangeZ (a b : ℤ) : List ℤ := (List.range (b - a).toNat).map (fun (k : ℕ) => a + (k : ℤ))

/-- The `relative_positions` comprehension of `neighbors` (lines 429-433):
all `(i, j)` with `i, j ∈ range(-order, order + 1)` except `(0, 0)`. -/
def relative_positions (order : ℤ) : List (ℤ × ℤ) :=
  (rangeZ (-order) (order + 1)).flatMap (fun i =>
    (rangeZ (-order) (order + 1)).filterMap (fun j =>
      if i = 0 ∧ j = 0 then none else some (i, j)))

/-- The distinct exceptions raised by the class, named as in the spec's error
taxonomy (`ValueError`/`TypeError` messages of geohash.py). -/
inductive GeohashError where
  | InvalidLength
  | InvalidCoordinateShape
  | EmptyGeohash
  | InvalidCharacter
  | InvalidOrder
  | BothSpecified
deriving DecidableEq, Repr

/-- Embeds `Geohash.neighbors` (lines 385-445), on an explicit geohash string.  The
`order` type/value check of line 418 raises `TypeError`; encoding of each
offset point uses the length of the stored geohash. -/
def neighbors (geohash : List Char) (order : ℤ) : Except GeohashError (List (List Char)) :=
  if order < 1 then .error .InvalidOrder
  else
    let r := decode_to_interval geohash
    let delta_lat := r.1.2 - r.1.1
    let delta_lng := r.2.2 - r.2.1
    let lat := (r.1.1 + r.1.2) / 2
    let lng := (r.2.1 + r.2.2) / 2
    .ok ((relative_positions order).map (fun ij =>
      _encode (_normalize_lat (lat + delta_lat * (ij.1 : ℚ)))
        (_normalize_angle_180 (lng + delta_lng * (ij.2 : ℚ)))
        geohash.length))

/-- Embeds `Geohash._validate_length` (lines 63-78); the `isinstance` check is
subsumed by typing the argument as `ℤ`. -/
def _validate_length (length : ℤ) : Except GeohashError Unit :=
  if length < 1 then .error .InvalidLength else .ok ()

/-- Embeds `Geohash._validate_lat_lng` (lines 80-98); the list/number `isinstance`
checks are subsumed by typing, leaving the arity check of line 94. -/
def _validate_lat_lng (lat_lng : List ℚ) : Except GeohashError Unit :=
  if lat_lng.length ≠ 2 then .error .InvalidCoordinateShape else .ok ()

/-- Embeds `Geohash._validate_geohash` (lines 100-118): empty check first, then the
per-character alphabet check. -/
def _validate_geohash (s : List Char) : Except GeohashError Unit :=
  if s = [] then .error .EmptyGeohash
  else if ∀ c ∈ s, c ∈ BASE_32 then .ok ()
  else .error .InvalidCharacter

/-- Embeds `Geohash.encode_with_lat_lng` (lines 196-238).  The Python method
overwrites `lat_lng[0]`/`lat_lng[1]` with the normalized angles and stores
the encoded string in `self._geohash`; both caller-visible results are
returned here as the pair (updated list, stored geohash). -/
def encode_with_lat_lng (lat_lng : List ℚ) (length : ℤ) :
    Except GeohashError (List ℚ × List Char) :=
  match _validate_lat_lng lat_lng with
  | .error e => .error e
  | .ok _ =>
    match _validate_length length with
    | .error e => .error e
    | .ok _ =>
      match lat_lng with
      | [lat, lng] =>
        let nlat := _normalize_lat lat
        let nlng := _normalize_angle_180 lng
        .ok ([nlat, nlng], _encode nlat nlng length.toNat)
      | _ => .error .InvalidCoordinateShape

/-- Embeds `Geohash.__init__` (lines 26-52), returning the stored `self._geohash`.
The unreachable `(none, none)` fallthrough (the default string has already
been substituted) is mapped to `EmptyGeohash`. -/
def Geohash_init (lat_lng : Option (List ℚ)) (length : ℤ) (geohash : Option (List Char)) :
    Except GeohashError (List Char) :=
  if lat_lng.isSome && geohash.isSome then .error .BothSpecified
  else
    let geohash :=
      if lat_lng.isNone && geohash.isNone then some ("s0000000000".toList) else geohash
    match lat_lng with
    | some ll => (encode_with_lat_lng ll length).map (fun r => r.2)
    | none =>
      match geohash with
      | some g => (_validate_geohash g).map (fun _ => g)
      | none => .error .EmptyGeohash

/-- Embeds `Geohash._round` (lines 473-476): `p = 10 ** digit` and
`(val * p * 2 + 1) // 2 / p` with Python floor division. -/
def _round (val : ℚ) (digit : ℤ) : ℚ :=
  let p : ℚ := 10 ^ digit
  (((val * p * 2 + 1) / 2).floor : ℚ) / p

/-- A geohash string accepted by `_validate_geohash`: non-empty, every
character in the alphabet. -/
def ValidGeohash (geohash : List Char) : Prop :=
  geohash ≠ [] ∧ ∀ c ∈ geohash, c ∈ BASE_32

/-- Modelled from the spec: the "derived point decode" of §4.3, which the
spec says rounds each interval midpoint to `floor(log10(interval_width))`-many
significant decimal places (at least 1), half-away-from-zero, via `_round`.
`Int.log 10 w` is `floor(log10 w)`; the decimal-place count is its negation,
clamped to at least 1.  No such rounding exists in `decode` in the source;
this definition exists to state the spec's claim. -/
def decode_point_specRounded (geohash : List Char) : ℚ × ℚ :=
  let r := decode_to_interval geohash
  let dlat : ℤ := max 1 (-(Int.log 10 (r.1.2 - r.1.1)))
  let dlng : ℤ := max 1 (-(Int.log 10 (r.2.2 - r.2.1)))
  (_round ((r.1.1 + r.1.2) / 2) dlat, _round ((r.2.1 + r.2.2) / 2) dlng)

/-- Decidable equality for `Except` results. -/
instance {ε α : Type _} [DecidableEq ε] [DecidableEq α] : DecidableEq (Except ε α) :=
  fun x y =>
    match x, y with
    | .ok a, .ok b =>
      if h : a = b then isTrue (h ▸ rfl) else isFalse (fun hc => h (Except.ok.inj hc))
    | .error e, .error f =>
      if h : e = f then isTrue (h ▸ rfl) else isFalse (fun hc => h (Except.error.inj hc))
    | .ok _, .error _ => isFalse (fun hc => Except.noConfusion hc)
    | .error _, .ok _ => isFalse (fun hc => Except.noConfusion hc)

/-- The containment invariant maintained by `decode_to_interval`'s loop. -/
def DecodeInv (s : DecodeState) : Prop :=
  -90 ≤ s.latMin ∧ s.latMin ≤ s.latMax ∧ s.latMax ≤ 90 ∧
    -180 ≤ s.lngMin ∧ s.lngMin ≤ s.lngMax ∧ s.lngMax ≤ 180

/-- The decode-side view of an encode state: same four bounds, and `is_even`
tracking `is_lng`. -/
def toD (s : EncodeState) : DecodeState :=
  { latMin := s.latMin, latMax := s.latMax, lngMin := s.lngMin, lngMax := s.lngMax,
    isEven := s.isLng }

/-- The nesting invariant of an encode state: bounds inside the world ranges,
and both intervals of positive width. -/
def EncodeInv (s : EncodeState) : Prop :=
  -180 ≤ s.lngMin ∧ s.lngMin < s.lngMax ∧ s.lngMax ≤ 180 ∧
    -90 ≤ s.latMin ∧ s.latMin < s.latMax ∧ s.latMax ≤ 90

/-! ### Facts about Python's floor-mod on ℚ and the two angle normalizers -/

/-- The computable `Rat.floor` agrees with the `⌊⌋` of `FloorRing ℚ`. -/
theorem ratFloor_eq (q : ℚ) : q.floor = ⌊q⌋ :=
  (Rat.floor_def' q).trans Rat.floor_def.symm

/-- The Python residue `x % 360` is non-negative. -/
theorem pymod_nonneg (x : ℚ) : 0 ≤ x - 360 * ((⌊x / 360⌋ : ℤ) : ℚ) := by
  have h1 := Int.floor_le (x / 360)
  linarith

/-- The Python residue `x % 360` is below 360. -/
theorem pymod_lt (x : ℚ) : x - 360 * ((⌊x / 360⌋ : ℤ) : ℚ) < 360 := by
  have h1 := Int.lt_floor_add_one (x / 360)
  linarith

/-- Unfolding of `_normalize_angle_180` with the floor written via `⌊⌋`. -/
theorem normalize_angle_def (x : ℚ) :
    _normalize_angle_180 x =
      if x - 360 * ((⌊x / 360⌋ : ℤ) : ℚ) > 180 then x - 360 * ((⌊x / 360⌋ : ℤ) : ℚ) - 360
      else if x < 0 then -(x - 360 * ((⌊x / 360⌋ : ℤ) : ℚ))
      else x - 360 * ((⌊x / 360⌋ : ℤ) : ℚ) := by
  simp only [_normalize_angle_180, ratFloor_eq]

/-- The longitude normalizer always lands in `[-180, 180]`. -/
theorem norm_angle_mem (x : ℚ) :
    -180 ≤ _normalize_angle_180 x ∧ _normalize_angle_180 x ≤ 180 := by
  rw [normalize_angle_def]
  have h1 := pymod_nonneg x
  have h2 := pymod_lt x
  split_ifs <;> constructor <;> linarith

/-- The longitude normalizer is the identity on `[-180, 180]`. -/
theorem norm_angle_id (x : ℚ) (h1 : -180 ≤ x) (h2 : x ≤ 180) :
    _normalize_angle_180 x = x := by
  rw [normalize_angle_def]
  rcases le_or_lt 0 x with hx | hx
  · have hf : ⌊x / 360⌋ = 0 := by
      rw [Int.floor_eq_iff]
      push_cast
      constructor <;> linarith
    rw [hf]
    push_cast
    split_ifs <;> linarith
  · have hf : ⌊x / 360⌋ = -1 := by
      rw [Int.floor_eq_iff]
      push_cast
      constructor <;> linarith
    rw [hf]
    push_cast
    split_ifs <;> linarith

/-- Unfolding of `_normalize_lat`. -/
theorem normalize_lat_def (x : ℚ) :
    _normalize_lat x =
      if _normalize_angle_180 x > 90 then 180 - _normalize_angle_180 x
      else if _normalize_angle_180 x < -90 then -180 - _normalize_angle_180 x
      else _normalize_angle_180 x := rfl

/-- The latitude normalizer always lands in `[-90, 90]`. -/
theorem norm_lat_mem (x : ℚ) : -90 ≤ _normalize_lat x ∧ _normalize_lat x ≤ 90 := by
  have h := norm_angle_mem x
  rw [normalize_lat_def]
  split_ifs <;> constructor <;> linarith

/-- The latitude normalizer is the identity on `[-90, 90]`. -/
theorem norm_lat_id (x : ℚ) (h1 : -90 ≤ x) (h2 : x ≤ 90) : _normalize_lat x = x := by
  rw [normalize_lat_def, norm_angle_id x (by linarith) (by linarith)]
  split_ifs <;> linarith

/-- Claim C1 (counterexample): `_normalize_angle_180 (-190)` is `-170`, which is
not congruent to `-190` modulo 360, and `_normalize_angle_180 (-540)` is `-180`,
which lies outside the claimed half-open range `(-180, 180]`.  The claim that
the normalizer always returns a value in `(-180, 180]` congruent to its input
modulo 360 is therefore false. -/
theorem c1_counterexample :
    _normalize_angle_180 (-190) = -170 ∧
      (¬ ∃ k : ℤ, (-190 : ℚ) - _normalize_angle_180 (-190) = 360 * k) ∧
      _normalize_angle_180 (-540) = -180 ∧
      ¬ ((-180 : ℚ) < _normalize_angle_180 (-540)) := by
  refine ⟨by decide, ?_, by decide, by decide⟩
  rintro ⟨k, hk⟩
  rw [show _normalize_angle_180 (-190) = -170 by decide] at hk
  have h1 : (360 : ℚ) * (k : ℚ) = -20 := by linarith
  have h2 : (360 : ℤ) * k = -20 := by exact_mod_cast h1
  omega

/-- Claim C1 (amended): `_normalize_angle_180` always returns a value in the
closed range `[-180, 180]`, and for every non-negative input the result lies in
`(-180, 180]` and is congruent to the input modulo 360.  (For negative inputs
whose Python residue `x % 360` lies in `(0, 180]`, the code returns the negated
residue, which is congruent to `-x`, not to `x`.) -/
theorem c1_normalize_angle_amended (x : ℚ) :
    (-180 ≤ _normalize_angle_180 x ∧ _normalize_angle_180 x ≤ 180) ∧
      (0 ≤ x →
        (-180 < _normalize_angle_180 x ∧
          ∃ k : ℤ, x - _normalize_angle_180 x = 360 * k)) := by
  refine ⟨norm_angle_mem x, fun hx => ?_⟩
  rw [normalize_angle_def]
  have h1 := pymod_nonneg x
  have h2 := pymod_lt x
  split_ifs with ha hb
  · exact ⟨by linarith, ⟨⌊x / 360⌋ + 1, by push_cast; ring⟩⟩
  · exact absurd hb (by linarith)
  · exact ⟨by linarith, ⟨⌊x / 360⌋, by ring⟩⟩

/-- Witness for `c1_normalize_angle_amended`: at `x = 250` the hypothesis
`0 ≤ x` holds and the normalizer returns a congruent value in `(-180, 180]`. -/
theorem c1_normalize_angle_amended_witness :
    (0 : ℚ) ≤ 250 ∧ -180 < _normalize_angle_180 250 ∧
      ∃ k : ℤ, (250 : ℚ) - _normalize_angle_180 250 = 360 * k := by
  have h := (c1_normalize_angle_amended 250).2 (by norm_num)
  exact ⟨by norm_num, h.1, h.2⟩

/-- Claim C5: both angle normalizers are idempotent, and the two concrete
wraparound scenarios of the spec hold:
`normalize_lat 370 = normalize_lat 10` and
`normalize_lng 720 = normalize_lng 0`. -/
theorem c5_idempotent_normalization :
    (∀ x : ℚ, _normalize_lat (_normalize_lat x) = _normalize_lat x) ∧
      (∀ x : ℚ, _normalize_angle_180 (_normalize_angle_180 x) = _normalize_angle_180 x) ∧
      _normalize_lat 370 = _normalize_lat 10 ∧
      _normalize_angle_180 720 = _normalize_angle_180 0 := by
  refine ⟨fun x => ?_, fun x => ?_, by decide, by decide⟩
  · have h := norm_lat_mem x
    exact norm_lat_id _ h.1 h.2
  · have h := norm_angle_mem x
    exact norm_angle_id _ h.1 h.2

/-! ### Concrete corner encodings and constructor behaviour -/

/-- Claim C4: encoding at length 11 (with normalization applied first, and the
longitude-first, `coordinate ≥ midpoint` emits-1 bisection order) maps the
three corner/origin inputs to exactly the strings the spec fixes. -/
theorem c4_corner_encodings :
    encode (-90) (-180) 11 = "00000000000".toList ∧
      encode 0 0 11 = "s0000000000".toList ∧
      encode 90 180 11 = "zzzzzzzzzzz".toList :=
  ⟨by decide, by decide, by decide⟩

/-- Claim C10: constructing a `Geohash` with neither a coordinate pair nor a
geohash string stores the default string `s0000000000`, which is the length-11
encoding of latitude 0, longitude 0; supplying both arguments at once is an
error and constructs nothing. -/
theorem c10_default_init :
    Geohash_init none 11 none = .ok ("s0000000000".toList) ∧
      _encode 0 0 11 = "s0000000000".toList ∧
      ∀ (ll : List ℚ) (len : ℤ) (g : List Char),
        Geohash_init (some ll) len (some g) = .error .BothSpecified :=
  ⟨rfl, by decide, fun ll len g => rfl⟩

/-- Behaviour of a well-formed `encode_with_lat_lng` call: the two-element
list is overwritten with the normalized angles, and the stored geohash is the
encoding of exactly those normalized values. -/
theorem encode_with_lat_lng_ok (lat lng : ℚ) (length : ℤ) (h : 1 ≤ length) :
    encode_with_lat_lng [lat, lng] length =
      .ok ([_normalize_lat lat, _normalize_angle_180 lng],
        _encode (_normalize_lat lat) (_normalize_angle_180 lng) length.toNat) := by
  simp [encode_with_lat_lng, _validate_lat_lng, _validate_length,
    show ¬(length < 1) from by omega]

/-- Claim C9: on a well-formed call, `encode_with_lat_lng` overwrites the
caller's two-element list with the normalized latitude (element 0) and
normalized longitude (element 1), and the geohash it stores is the encoding of
exactly those normalized values; nothing else is produced. -/
theorem c9_inplace_normalization (lat lng : ℚ) (length : ℤ) (h : 1 ≤ length) :
    encode_with_lat_lng [lat, lng] length =
      .ok ([_normalize_lat lat, _normalize_angle_180 lng],
        _encode (_normalize_lat lat) (_normalize_angle_180 lng) length.toNat) :=
  encode_with_lat_lng_ok lat lng length h

/-- Witness for `c9_inplace_normalization` at `lat = 100`, `lng = 200`,
`length = 1`. -/
theorem c9_inplace_normalization_witness :
    (1 : ℤ) ≤ 1 ∧
      encode_with_lat_lng [100, 200] 1 =
        .ok ([_normalize_lat 100, _normalize_angle_180 200],
          _encode (_normalize_lat 100) (_normalize_angle_180 200) (1 : ℤ).toNat) :=
  ⟨le_refl 1, c9_inplace_normalization 100 200 1 (le_refl 1)⟩

/-- Claim C7: validation fails exactly at the stated boundaries — encoding
with `length < 1` fails with the invalid-length error, decoding/validating an
empty geohash string fails with the empty-geohash error, a non-empty string
with a character outside the 32-symbol alphabet fails with the
invalid-character error, and inputs passing these checks succeed. -/
theorem c7_validation_boundaries :
    (∀ (lat lng : ℚ) (len : ℤ), len < 1 →
        encode_with_lat_lng [lat, lng] len = .error .InvalidLength) ∧
      (∀ (lat lng : ℚ) (len : ℤ), 1 ≤ len →
        ∃ r, encode_with_lat_lng [lat, lng] len = .ok r) ∧
      (∀ len : ℤ, Geohash_init none len (some []) = .error .EmptyGeohash) ∧
      (∀ (len : ℤ) (s : List Char), s ≠ [] → (∃ c ∈ s, c ∉ BASE_32) →
        Geohash_init none len (some s) = .error .InvalidCharacter) ∧
      (∀ (len : ℤ) (s : List Char), s ≠ [] → (∀ c ∈ s, c ∈ BASE_32) →
        Geohash_init none len (some s) = .ok s) := by
  refine ⟨fun lat lng len hlen => ?_, fun lat lng len hlen =>
    ⟨_, encode_with_lat_lng_ok lat lng len hlen⟩, fun len => rfl,
    fun len s hne hbad => ?_, fun len s hne hgood => ?_⟩
  · simp [encode_with_lat_lng, _validate_lat_lng, _validate_length, hlen]
  · have hall : ¬ ∀ c ∈ s, c ∈ BASE_32 := by
      rcases hbad with ⟨c, hc, hcn⟩
      exact fun hforall => hcn (hforall c hc)
    have hv : _validate_geohash s = .error .InvalidCharacter := by
      unfold _validate_geohash
      rw [if_neg hne, if_neg hall]
    simp [Geohash_init, hv, Except.map]
  · have hv : _validate_geohash s = .ok () := by
      unfold _validate_geohash
      rw [if_neg hne, if_pos hgood]
    simp [Geohash_init, hv, Except.map]

/-- Witness for `c7_validation_boundaries`: the spec's concrete failing inputs
(`length = -1`; the string `"invalid_geohash@!"`; the empty string) and two
passing inputs. -/
theorem c7_validation_boundaries_witness :
    encode_with_lat_lng [37.7749, -122.4194] (-1) = .error .InvalidLength ∧
      (∃ r, encode_with_lat_lng [0, 0] 11 = .ok r) ∧
      Geohash_init none 11 (some []) = .error .EmptyGeohash ∧
      Geohash_init none 11 (some ("invalid_geohash@!".toList)) = .error .InvalidCharacter ∧
      Geohash_init none 11 (some ("ezs42".toList)) = .ok ("ezs42".toList) :=
  ⟨c7_validation_boundaries.1 _ _ _ (by norm_num),
    c7_validation_boundaries.2.1 _ _ _ (by norm_num),
    c7_validation_boundaries.2.2.1 _,
    c7_validation_boundaries.2.2.2.1 _ _ (by decide) ⟨'i', by decide, by decide⟩,
    c7_validation_boundaries.2.2.2.2 _ _ (by decide) (by decide)⟩

/-! ### The decode interval containment invariant -/

/-- One decode step keeps the bounds nested: the midpoint of an interval lies
between its endpoints. -/
theorem decodeStep_inv (B p : ℕ) (s : DecodeState) (h : DecodeInv s) :
    DecodeInv (decodeStep B s p) := by
  obtain ⟨h1, h2, h3, h4, h5, h6⟩ := h
  unfold DecodeInv decodeStep
  cases hE : s.isEven <;> by_cases hb : (B >>> p) % 2 = 1 <;>
    simp only [hE, hb, if_true, if_false, ite_true, ite_false, Bool.false_eq_true] <;>
    exact ⟨by linarith, by linarith, by linarith, by linarith, by linarith, by linarith⟩

/-- The whole decode loop preserves the containment invariant. -/
theorem decodeLoop_inv (B : ℕ) :
    ∀ (n : ℕ) (s : DecodeState), DecodeInv s → DecodeInv (decodeLoop B n s)
  | 0, _, h => h
  | p + 1, s, h => decodeLoop_inv B p (decodeStep B s p) (decodeStep_inv B p s h)

/-- Claim C8: for every valid geohash string, the interval pair returned by
`decode_to_interval` satisfies the containment invariant: the latitude range
is inside `[-90, 90]`, the longitude range is inside `[-180, 180]`, and in
each pair the minimum does not exceed the maximum. -/
theorem c8_interval_invariant (geohash : List Char) (_h : ValidGeohash geohash) :
    -90 ≤ (decode_to_interval geohash).1.1 ∧
      (decode_to_interval geohash).1.1 ≤ (decode_to_interval geohash).1.2 ∧
      (decode_to_interval geohash).1.2 ≤ 90 ∧
      -180 ≤ (decode_to_interval geohash).2.1 ∧
      (decode_to_interval geohash).2.1 ≤ (decode_to_interval geohash).2.2 ∧
      (decode_to_interval geohash).2.2 ≤ 180 := by
  have h0 : DecodeInv decodeInit := by
    refine ⟨?_, ?_, ?_, ?_, ?_, ?_⟩ <;> norm_num [decodeInit]
  exact decodeLoop_inv (_geohash_to_bits geohash) (geohash.length * 5) decodeInit h0

/-- Witness for `c8_interval_invariant` at the geohash `"ezs42"`. -/
theorem c8_interval_invariant_witness :
    ValidGeohash ("ezs42".toList) ∧
      (-90 ≤ (decode_to_interval ("ezs42".toList)).1.1 ∧
        (decode_to_interval ("ezs42".toList)).1.1 ≤ (decode_to_interval ("ezs42".toList)).1.2 ∧
        (decode_to_interval ("ezs42".toList)).1.2 ≤ 90 ∧
        -180 ≤ (decode_to_interval ("ezs42".toList)).2.1 ∧
        (decode_to_interval ("ezs42".toList)).2.1 ≤ (decode_to_interval ("ezs42".toList)).2.2 ∧
        (decode_to_interval ("ezs42".toList)).2.2 ≤ 180) := by
  have hv : ValidGeohash ("ezs42".toList) := by
    constructor
    · decide
    · decide
  exact ⟨hv, c8_interval_invariant _ hv⟩

/-! ### Neighbor enumeration: grid size and string lengths -/

/-- The function `_encode` always produces a string of the requested length. -/
theorem _encode_length (lat lng : ℚ) (length : Nat) :
    (_encode lat lng length).length = length := by
  simp [_encode]

/-- Membership in the `ℤ`-valued `range`. -/
theorem mem_rangeZ {a b x : ℤ} : x ∈ rangeZ a b ↔ a ≤ x ∧ x < b := by
  unfold rangeZ
  rw [List.mem_map]
  constructor
  · rintro ⟨k, hk, rfl⟩
    rw [List.mem_range] at hk
    omega
  · intro hx
    refine ⟨(x - a).toNat, ?_, by omega⟩
    rw [List.mem_range]
    omega

/-- The `ℤ`-valued `range` has no duplicates. -/
theorem rangeZ_nodup (a b : ℤ) : (rangeZ a b).Nodup := by
  unfold rangeZ
  exact List.Nodup.map (fun x y h => by omega) (List.nodup_range _)

/-- Zero occurs exactly once in `range(-order, order + 1)` when `order ≥ 1`. -/
theorem count_zero_rangeZ (order : ℤ) (h : 1 ≤ order) :
    (rangeZ (-order) (order + 1)).count 0 = 1 :=
  List.count_eq_one_of_mem (rangeZ_nodup _ _) (mem_rangeZ.2 ⟨by omega, by omega⟩)

/-- Length of one row of the neighbor grid: every column except `(0, 0)`. -/
theorem inner_row_length (i : ℤ) (l : List ℤ) :
    (l.filterMap (fun j => if i = 0 ∧ j = 0 then none else some (i, j))).length
      = l.length - (if i = 0 then l.count 0 else 0) := by
  induction l with
  | nil => simp
  | cons a l ih =>
    have hc := List.count_le_length (0 : ℤ) l
    by_cases hi : i = 0
    · subst hi
      by_cases ha : a = 0
      · subst ha
        rw [List.filterMap_cons_none (by simp), ih]
        simp only [if_pos rfl, List.count_cons, List.length_cons, beq_self_eq_true,
          ite_true]
        omega
      · rw [List.filterMap_cons_some (b := ((0 : ℤ), a)) (by simp [ha]),
          List.length_cons, ih]
        have h1 : (if (0 : ℤ) = 0 then List.count 0 l else 0) = List.count 0 l :=
          if_pos rfl
        have h2 : (if (0 : ℤ) = 0 then List.count 0 (a :: l) else 0)
            = List.count 0 (a :: l) := if_pos rfl
        rw [h1, h2, List.count_cons, if_neg (by simp only [beq_iff_eq]; exact ha),
          List.length_cons]
        omega
    · rw [List.filterMap_cons_some (b := (i, a)) (by simp [hi]), List.length_cons, ih]
      rw [if_neg hi, if_neg hi, List.length_cons]
      omega

/-- Summing the row lengths: a list with `N`-or-`N - 1` entries, where `N - 1`
happens once per occurrence of zero. -/
theorem sum_row_lengths (N : ℕ) (hN : 1 ≤ N) :
    ∀ l : List ℤ, (l.map (fun i => N - (if i = 0 then 1 else 0))).sum + l.count 0
      = N * l.length
  | [] => by simp
  | a :: l => by
    have ih := sum_row_lengths N hN l
    rw [List.map_cons, List.sum_cons, List.count_cons, List.length_cons, Nat.mul_succ]
    by_cases ha : a = 0
    · rw [if_pos ha, if_pos (by simp [ha])]
      omega
    · rw [if_neg ha, if_neg (by simp only [beq_iff_eq]; exact ha)]
      omega

/-- The neighbor offset grid has exactly `(2 * order + 1)^2 - 1` entries. -/
theorem relative_positions_length (order : ℤ) (h : 1 ≤ order) :
    ((relative_positions order).length : ℤ) = (2 * order + 1) ^ 2 - 1 := by
  unfold relative_positions
  rw [List.length_flatMap]
  have hlen : (rangeZ (-order) (order + 1)).length = (2 * order + 1).toNat := by
    simp only [rangeZ, List.length_map, List.length_range]
    omega
  have hcount := count_zero_rangeZ order h
  have hN : 1 ≤ (2 * order + 1).toNat := by omega
  have hmap : List.map
      (List.length ∘ fun i => (rangeZ (-order) (order + 1)).filterMap
        (fun j => if i = 0 ∧ j = 0 then none else some (i, j)))
      (rangeZ (-order) (order + 1))
        = (rangeZ (-order) (order + 1)).map
            (fun i => (2 * order + 1).toNat - (if i = 0 then 1 else 0)) := by
    refine List.map_congr_left (fun i _ => ?_)
    simp only [Function.comp_apply, inner_row_length, hlen, hcount]
  rw [hmap]
  have hsum := sum_row_lengths (2 * order + 1).toNat hN (rangeZ (-order) (order + 1))
  rw [hcount, hlen] at hsum
  have hT : (((2 * order + 1).toNat : ℤ)) = 2 * order + 1 := by omega
  have hcast : ((List.map (fun i => (2 * order + 1).toNat - (if i = 0 then 1 else 0))
      (rangeZ (-order) (order + 1))).sum : ℤ)
        = ((2 * order + 1).toNat : ℤ) * ((2 * order + 1).toNat : ℤ) - 1 := by
    have := congrArg (fun n : ℕ => (n : ℤ)) hsum
    push_cast at this ⊢
    omega
  rw [hcast, hT]
  ring

/-- Claim C6: for a valid geohash of length L and an order ≥ 1, `neighbors`
returns exactly `(2*order+1)^2 - 1` geohash strings (duplicates permitted),
one per offset `(i, j) ≠ (0, 0)` with `i, j ∈ [-order, order]`, and every
returned string has length L. -/
theorem c6_neighbor_count (geohash : List Char) (order : ℤ) (l : List (List Char))
    (_hv : ValidGeohash geohash) (ho : 1 ≤ order)
    (hl : neighbors geohash order = .ok l) :
    (l.length : ℤ) = (2 * order + 1) ^ 2 - 1 ∧ ∀ s ∈ l, s.length = geohash.length := by
  unfold neighbors at hl
  rw [if_neg (by omega)] at hl
  have hl' := (Except.ok.inj hl).symm
  subst hl'
  constructor
  · rw [List.length_map]
    exact relative_positions_length order ho
  · intro s hs
    rw [List.mem_map] at hs
    obtain ⟨ij, _, rfl⟩ := hs
    exact _encode_length _ _ _

/-- Witness for `c6_neighbor_count`: the geohash `"s"` with `order = 1` has
exactly 8 neighbors, each a single character. -/
theorem c6_neighbor_count_witness :
    ValidGeohash ("s".toList) ∧ (1 : ℤ) ≤ 1 ∧
      ∃ l, neighbors ("s".toList) 1 = .ok l ∧
        (l.length : ℤ) = (2 * 1 + 1) ^ 2 - 1 ∧
        ∀ s ∈ l, s.length = ("s".toList).length := by
  have hv : ValidGeohash ("s".toList) := ⟨by decide, by decide⟩
  have h : neighbors ("s".toList) 1 =
      .ok [['7'], ['k'], ['m'], ['e'], ['t'], ['g'], ['u'], ['v']] := by decide
  exact ⟨hv, le_refl 1, _, h, c6_neighbor_count _ _ _ hv (le_refl 1) h⟩

/-! ### The point decode returns raw midpoints; the spec's rounding is absent -/

/-- The value `floor (log10 (45/1024))` is `-2`; `45/1024` is the width of both decoded
intervals of the geohash `"ezs42"`. -/
theorem log10_width_ezs42 : Int.log 10 ((45 : ℚ) / 1024) = -2 := by
  rw [Int.log_of_right_le_one 10 (by norm_num)]
  have hceil : ⌈((45 : ℚ) / 1024)⁻¹⌉₊ = 23 := by
    rw [Nat.ceil_eq_iff (by norm_num)]
    norm_num
  rw [hceil]
  have h1 : Nat.clog 10 23 ≤ 2 := (Nat.le_pow_iff_clog_le (by norm_num)).1 (by norm_num)
  have h2 : ¬ Nat.clog 10 23 ≤ 1 := fun hle =>
    absurd ((Nat.le_pow_iff_clog_le (by norm_num)).2 hle) (by norm_num)
  have h3 : Nat.clog 10 23 = 2 := by omega
  rw [h3]
  norm_num

/-- Claim C2 (counterexample): on the geohash `"ezs42"` the code's `decode`
returns the exact midpoints `(42.60498046875, -5.60302734375)`, not the
width-derived rounding `(42.6, -5.6)` that the spec describes, so the claim
that `decode` rounds midpoints via `floor(log10(interval_width))` is false. -/
theorem c2_counterexample :
    decode ("ezs42".toList) ≠ decode_point_specRounded ("ezs42".toList) := by
  have hr : decode_to_interval ("ezs42".toList)
      = ((43605 / 1024, 21825 / 512), (-45 / 8, -5715 / 1024)) := by decide
  have hdlat : max 1 (-(Int.log 10 ((21825 : ℚ) / 512 - 43605 / 1024))) = 2 := by
    rw [show (21825 : ℚ) / 512 - 43605 / 1024 = 45 / 1024 from by norm_num,
      log10_width_ezs42]
    norm_num
  have hdlng : max 1 (-(Int.log 10 ((-5715 : ℚ) / 1024 - -45 / 8))) = 2 := by
    rw [show (-5715 : ℚ) / 1024 - -45 / 8 = 45 / 1024 from by norm_num,
      log10_width_ezs42]
    norm_num
  have hspec : decode_point_specRounded ("ezs42".toList) = (213 / 5, -28 / 5) := by
    simp only [decode_point_specRounded, hr, hdlat, hdlng]
    rw [Prod.mk.injEq]
    exact ⟨by decide, by decide⟩
  rw [hspec, show decode ("ezs42".toList) = (87255 / 2048, -11475 / 2048) from by decide]
  decide

/-- Claim C2 (amended): for every geohash string, `decode` returns exactly the
arithmetic midpoint of each interval produced by `decode_to_interval`, with no
rounding of any kind (the `_round` helper exists in the class but is never
called by `decode`). -/
theorem c2_decode_midpoint_amended (geohash : List Char) :
    decode geohash
      = (((decode_to_interval geohash).1.1 + (decode_to_interval geohash).1.2) / 2,
        ((decode_to_interval geohash).2.1 + (decode_to_interval geohash).2.2) / 2) := rfl

/-! ### Round trip: decoding an encoded string replays the bisection -/

/-- The encode loop applied one extra time steps the already-computed state. -/
theorem encodeLoop_succ (lat lng : ℚ) :
    ∀ (n : ℕ) (s : EncodeState),
      encodeLoop lat lng (n + 1) s = encodeStep lat lng (encodeLoop lat lng n s)
  | 0, _ => rfl
  | n + 1, s => encodeLoop_succ lat lng n (encodeStep lat lng s)

/-- The encode loop splits over a sum of step counts. -/
theorem encodeLoop_add (lat lng : ℚ) (a : ℕ) :
    ∀ (b : ℕ) (s : EncodeState),
      encodeLoop lat lng (a + b) s = encodeLoop lat lng b (encodeLoop lat lng a s)
  | 0, s => rfl
  | b + 1, s => by
    rw [show a + (b + 1) = (a + b) + 1 from rfl, encodeLoop_succ,
      encodeLoop_add lat lng a b s, ← encodeLoop_succ]

/-- Every encode step shifts one fresh bit into `bit_code`. -/
theorem encodeStep_bitCode (lat lng : ℚ) (s : EncodeState) :
    (encodeStep lat lng s).bitCode = 2 * s.bitCode ∨
      (encodeStep lat lng s).bitCode = 2 * s.bitCode + 1 := by
  unfold encodeStep
  by_cases hL : s.isLng <;> by_cases hc1 : lng < (s.lngMin + s.lngMax) / 2 <;>
    by_cases hc2 : lat < (s.latMin + s.latMax) / 2 <;> simp [hL, hc1, hc2]

/-- After `k` further steps, `bit_code` is the old code shifted left `k` bits
plus `k` fresh bits. -/
theorem encodeLoop_bitCode (lat lng : ℚ) :
    ∀ (k : ℕ) (s : EncodeState), ∃ r, r < 2 ^ k ∧
      (encodeLoop lat lng k s).bitCode = s.bitCode * 2 ^ k + r
  | 0, s => ⟨0, by norm_num, by simp [encodeLoop]⟩
  | k + 1, s => by
    obtain ⟨r, hr, hbc⟩ := encodeLoop_bitCode lat lng k (encodeStep lat lng s)
    have hL : encodeLoop lat lng (k + 1) s = encodeLoop lat lng k (encodeStep lat lng s) :=
      rfl
    rcases encodeStep_bitCode lat lng s with h | h
    · refine ⟨r, ?_, ?_⟩
      · rw [pow_succ]
        omega
      · rw [hL, hbc, h, pow_succ]
        ring
    · refine ⟨2 ^ k + r, ?_, ?_⟩
      · rw [pow_succ]
        omega
      · rw [hL, hbc, h, pow_succ]
        ring

/-- If the bit at position `p` of the decode stream has the parity of the bit
just emitted by `encodeStep`, then the decode step mirrors the encode step. -/
theorem decodeStep_toD (lat lng : ℚ) (B p : ℕ) (s : EncodeState)
    (hbit : (B >>> p) % 2 = (encodeStep lat lng s).bitCode % 2) :
    decodeStep B (toD s) p = toD (encodeStep lat lng s) := by
  cases hL : s.isLng
  · by_cases hc : lat < (s.latMin + s.latMax) / 2
    · have hes : encodeStep lat lng s =
          { s with
            bitCode := 2 * s.bitCode
            latMax := (s.latMin + s.latMax) / 2
            isLng := true } := by
        unfold encodeStep
        rw [hL]
        simp [hc]
      rw [hes] at hbit ⊢
      have hb0 : ¬ ((B >>> p) % 2 = 1) := by
        rw [hbit]
        dsimp only
        omega
      unfold decodeStep toD
      simp only [hL, Bool.false_eq_true, if_false, ite_false, if_neg hb0]
    · have hes : encodeStep lat lng s =
          { s with
            bitCode := 2 * s.bitCode + 1
            latMin := (s.latMin + s.latMax) / 2
            isLng := true } := by
        unfold encodeStep
        rw [hL]
        simp [hc]
      rw [hes] at hbit ⊢
      have hb1 : (B >>> p) % 2 = 1 := by
        rw [hbit]
        dsimp only
        omega
      unfold decodeStep toD
      simp only [hL, Bool.false_eq_true, if_false, ite_false, if_pos hb1]
  · by_cases hc : lng < (s.lngMin + s.lngMax) / 2
    · have hes : encodeStep lat lng s =
          { s with
            bitCode := 2 * s.bitCode
            lngMax := (s.lngMin + s.lngMax) / 2
            isLng := false } := by
        unfold encodeStep
        rw [hL]
        simp [hc]
      rw [hes] at hbit ⊢
      have hb0 : ¬ ((B >>> p) % 2 = 1) := by
        rw [hbit]
        dsimp only
        omega
      unfold decodeStep toD
      simp only [hL, if_true, ite_true, if_neg hb0]
    · have hes : encodeStep lat lng s =
          { s with
            bitCode := 2 * s.bitCode + 1
            lngMin := (s.lngMin + s.lngMax) / 2
            isLng := false } := by
        unfold encodeStep
        rw [hL]
        simp [hc]
      rw [hes] at hbit ⊢
      have hb1 : (B >>> p) % 2 = 1 := by
        rw [hbit]
        dsimp only
        omega
      unfold decodeStep toD
      simp only [hL, if_true, ite_true, if_pos hb1]

/-- Replaying the final `bit_code` through the decode loop, starting from the
decode view of any intermediate encode state, reaches the decode view of the
final encode state. -/
theorem decodeLoop_replay (lat lng : ℚ) (n : ℕ) :
    ∀ (j m : ℕ), m + j = n →
      decodeLoop (encodeLoop lat lng n encodeInit).bitCode j
          (toD (encodeLoop lat lng m encodeInit))
        = toD (encodeLoop lat lng n encodeInit)
  | 0, m, h => by
    rw [show m = n from by omega]
    rfl
  | j + 1, m, h => by
    have hsucc : encodeLoop lat lng (m + 1) encodeInit
        = encodeStep lat lng (encodeLoop lat lng m encodeInit) :=
      encodeLoop_succ lat lng m encodeInit
    have hdecomp : encodeLoop lat lng n encodeInit
        = encodeLoop lat lng j (encodeLoop lat lng (m + 1) encodeInit) := by
      rw [← encodeLoop_add]
      congr 1
      omega
    obtain ⟨r, hr, hbc⟩ :=
      encodeLoop_bitCode lat lng j (encodeLoop lat lng (m + 1) encodeInit)
    have h2 : 0 < 2 ^ j := Nat.pos_pow_of_pos j (by norm_num)
    have hbit : ((encodeLoop lat lng n encodeInit).bitCode >>> j) % 2
        = (encodeStep lat lng (encodeLoop lat lng m encodeInit)).bitCode % 2 := by
      rw [hdecomp, hbc, ← hsucc, Nat.shiftRight_eq_div_pow, mul_comm,
        Nat.mul_add_div h2, Nat.div_eq_of_lt hr, Nat.add_zero]
    have hstep :=
      decodeStep_toD lat lng (encodeLoop lat lng n encodeInit).bitCode j
        (encodeLoop lat lng m encodeInit) hbit
    have hunf : decodeLoop (encodeLoop lat lng n encodeInit).bitCode (j + 1)
          (toD (encodeLoop lat lng m encodeInit))
        = decodeLoop (encodeLoop lat lng n encodeInit).bitCode j
            (decodeStep (encodeLoop lat lng n encodeInit).bitCode
              (toD (encodeLoop lat lng m encodeInit)) j) := rfl
    rw [hunf, hstep, ← hsucc]
    exact decodeLoop_replay lat lng n j (m + 1) (by omega)

/-- Round trip of one 5-bit value through the alphabet tables. -/
theorem base32_roundtrip : ∀ v : ℕ, v < 32 → _base_32_to_int (_int_to_base_32 v) = v := by
  decide

/-- Appending a 5-bit digit: shift-or equals multiply-add. -/
theorem shiftLeft5_lor (a d : ℕ) (hd : d < 32) : (a <<< 5) ||| d = a * 32 + d := by
  have hd5 : d < 2 ^ 5 := by simpa using hd
  apply Nat.eq_of_testBit_eq
  intro i
  rw [Nat.testBit_lor, Nat.testBit_shiftLeft,
    show a * 32 + d = 2 ^ 5 * a + d from by ring,
    Nat.testBit_mul_pow_two_add a hd5 i]
  by_cases hi : i < 5
  · have hni : ¬ (i ≥ 5) := by omega
    simp [hi, hni]
  · have hge : i ≥ 5 := by omega
    have hdb : d.testBit i = false :=
      Nat.testBit_lt_two_pow (lt_of_lt_of_le hd5 (Nat.pow_le_pow_right (by norm_num) hge))
    simp [hi, hge, hdb]

/-- Folding the encoded digit string reconstructs the low `5 L` bits of the
bit code. -/
theorem foldl_encode_digits (B : ℕ) : ∀ (L acc : ℕ),
    ((List.range L).reverse.map (fun i => _int_to_base_32 ((B >>> (5 * i)) % 32))).foldl
        (fun bitstream c => (bitstream <<< 5) ||| _base_32_to_int c) acc
      = acc * 32 ^ L + B % 32 ^ L
  | 0, acc => by simp [Nat.mod_one]
  | L + 1, acc => by
    have hrev : (List.range (L + 1)).reverse = L :: (List.range L).reverse := by
      rw [List.range_succ, List.reverse_append]
      rfl
    rw [hrev, List.map_cons, List.foldl_cons,
      base32_roundtrip _ (Nat.mod_lt _ (by norm_num)),
      shiftLeft5_lor _ _ (Nat.mod_lt _ (by norm_num)),
      foldl_encode_digits B L (acc * 32 + B >>> (5 * L) % 32)]
    have hd : B >>> (5 * L) % 32 = B / 32 ^ L % 32 := by
      rw [Nat.shiftRight_eq_div_pow, pow_mul]
      norm_num
    have hmod : B % 32 ^ (L + 1) = B % 32 ^ L + 32 ^ L * (B / 32 ^ L % 32) := by
      rw [pow_succ, Nat.mod_mul]
    rw [hd, hmod, pow_succ]
    ring

/-- The function `_geohash_to_bits` inverts the chunking performed by `_encode`. -/
theorem geohash_to_bits_encode (lat lng : ℚ) (L : ℕ) :
    _geohash_to_bits (_encode lat lng L)
      = (encodeLoop lat lng (L * 5) encodeInit).bitCode := by
  simp only [_geohash_to_bits, _encode]
  rw [foldl_encode_digits]
  obtain ⟨r, hr, hbc⟩ := encodeLoop_bitCode lat lng (L * 5) encodeInit
  have h0 : encodeInit.bitCode = 0 := rfl
  rw [h0] at hbc
  have hpow : (2 : ℕ) ^ (L * 5) = 32 ^ L := by
    rw [mul_comm, pow_mul]
    norm_num
  have hlt : (encodeLoop lat lng (L * 5) encodeInit).bitCode < 32 ^ L := by
    rw [hbc, Nat.zero_mul, Nat.zero_add, ← hpow]
    exact hr
  rw [Nat.zero_mul, Nat.zero_add, Nat.mod_eq_of_lt hlt]

/-- Decoding an encoded string recovers exactly the final intervals of the
encode bisection. -/
theorem decode_to_interval_encode (lat lng : ℚ) (L : ℕ) :
    decode_to_interval (_encode lat lng L)
      = (((encodeLoop lat lng (L * 5) encodeInit).latMin,
          (encodeLoop lat lng (L * 5) encodeInit).latMax),
        ((encodeLoop lat lng (L * 5) encodeInit).lngMin,
          (encodeLoop lat lng (L * 5) encodeInit).lngMax)) := by
  simp only [decode_to_interval]
  rw [_encode_length, geohash_to_bits_encode]
  have h := decodeLoop_replay lat lng (L * 5) (L * 5) 0 (by omega)
  have h0 : toD (encodeLoop lat lng 0 encodeInit) = decodeInit := rfl
  rw [h0] at h
  rw [h]
  rfl

/-- The initial state satisfies the nesting invariant. -/
theorem encodeInit_inv : EncodeInv encodeInit := by
  refine ⟨?_, ?_, ?_, ?_, ?_, ?_⟩ <;> norm_num [encodeInit]

/-- One encode step preserves the nesting invariant. -/
theorem encodeStep_inv (lat lng : ℚ) (s : EncodeState) (h : EncodeInv s) :
    EncodeInv (encodeStep lat lng s) := by
  obtain ⟨h1, h2, h3, h4, h5, h6⟩ := h
  unfold EncodeInv encodeStep
  by_cases hL : s.isLng <;> by_cases hc1 : lng < (s.lngMin + s.lngMax) / 2 <;>
    by_cases hc2 : lat < (s.latMin + s.latMax) / 2 <;>
    simp only [hL, hc1, hc2, if_true, if_false, ite_true, ite_false,
      Bool.false_eq_true] <;>
    exact ⟨by linarith, by linarith, by linarith, by linarith, by linarith, by linarith⟩

/-- The whole encode loop preserves the nesting invariant. -/
theorem encodeLoop_inv (lat lng : ℚ) :
    ∀ (k : ℕ) (s : EncodeState), EncodeInv s → EncodeInv (encodeLoop lat lng k s)
  | 0, _, h => h
  | k + 1, s, h => encodeLoop_inv lat lng k _ (encodeStep_inv lat lng s h)

/-- One encode step only narrows the bounds. -/
theorem encodeStep_mono (lat lng : ℚ) (s : EncodeState) (h : EncodeInv s) :
    s.lngMin ≤ (encodeStep lat lng s).lngMin ∧
      (encodeStep lat lng s).lngMax ≤ s.lngMax ∧
      s.latMin ≤ (encodeStep lat lng s).latMin ∧
      (encodeStep lat lng s).latMax ≤ s.latMax := by
  obtain ⟨h1, h2, h3, h4, h5, h6⟩ := h
  unfold encodeStep
  by_cases hL : s.isLng <;> by_cases hc1 : lng < (s.lngMin + s.lngMax) / 2 <;>
    by_cases hc2 : lat < (s.latMin + s.latMax) / 2 <;>
    simp only [hL, hc1, hc2, if_true, if_false, ite_true, ite_false,
      Bool.false_eq_true] <;>
    exact ⟨by linarith, by linarith, by linarith, by linarith⟩

/-- The whole encode loop only narrows the bounds. -/
theorem encodeLoop_mono (lat lng : ℚ) :
    ∀ (k : ℕ) (s : EncodeState), EncodeInv s →
      s.lngMin ≤ (encodeLoop lat lng k s).lngMin ∧
        (encodeLoop lat lng k s).lngMax ≤ s.lngMax ∧
        s.latMin ≤ (encodeLoop lat lng k s).latMin ∧
        (encodeLoop lat lng k s).latMax ≤ s.latMax
  | 0, s, _ => ⟨le_refl _, le_refl _, le_refl _, le_refl _⟩
  | k + 1, s, h => by
    have hstep := encodeStep_mono lat lng s h
    have ih := encodeLoop_mono lat lng k (encodeStep lat lng s) (encodeStep_inv lat lng s h)
    have hL : encodeLoop lat lng (k + 1) s = encodeLoop lat lng k (encodeStep lat lng s) :=
      rfl
    rw [hL]
    exact ⟨le_trans hstep.1 ih.1, le_trans ih.2.1 hstep.2.1,
      le_trans hstep.2.2.1 ih.2.2.1, le_trans ih.2.2.2 hstep.2.2.2⟩

/-- Re-encoding the midpoint of the final interval pair replays every branch
of the original bisection run. -/
theorem reencode_eq (lat lng : ℚ) (n : ℕ) :
    ∀ m, m ≤ n →
      encodeLoop
          (((encodeLoop lat lng n encodeInit).latMin
            + (encodeLoop lat lng n encodeInit).latMax) / 2)
          (((encodeLoop lat lng n encodeInit).lngMin
            + (encodeLoop lat lng n encodeInit).lngMax) / 2) m encodeInit
        = encodeLoop lat lng m encodeInit
  | 0, _ => rfl
  | m + 1, hm => by
    have ih := reencode_eq lat lng n m (by omega)
    rw [encodeLoop_succ, encodeLoop_succ, ih]
    set F := encodeLoop lat lng n encodeInit with hF
    set Em := encodeLoop lat lng m encodeInit with hEm
    have hinvEm : EncodeInv Em := encodeLoop_inv lat lng m encodeInit encodeInit_inv
    have hinvS : EncodeInv (encodeStep lat lng Em) := encodeStep_inv lat lng Em hinvEm
    have hFdec : F = encodeLoop lat lng (n - (m + 1)) (encodeStep lat lng Em) := by
      rw [hF, hEm, ← encodeLoop_succ, ← encodeLoop_add]
      congr 1
      omega
    have hmono := encodeLoop_mono lat lng (n - (m + 1)) (encodeStep lat lng Em) hinvS
    rw [← hFdec] at hmono
    have hinvF : EncodeInv F := by
      rw [hF]
      exact encodeLoop_inv lat lng n encodeInit encodeInit_inv
    obtain ⟨f1, f2, f3, f4, f5, f6⟩ := hinvF
    by_cases hL : Em.isLng
    · by_cases hc : lng < (Em.lngMin + Em.lngMax) / 2
      · have hsx : (encodeStep lat lng Em).lngMax = (Em.lngMin + Em.lngMax) / 2 := by
          unfold encodeStep
          rw [if_pos hL, if_pos hc]
        have hFx : F.lngMax ≤ (Em.lngMin + Em.lngMax) / 2 := by
          have h := hmono.2.1
          rw [hsx] at h
          exact h
        have hcm : (F.lngMin + F.lngMax) / 2 < (Em.lngMin + Em.lngMax) / 2 := by
          linarith
        unfold encodeStep
        simp only [if_pos hL, if_pos hc, if_pos hcm]
      · have hsx : (encodeStep lat lng Em).lngMin = (Em.lngMin + Em.lngMax) / 2 := by
          unfold encodeStep
          rw [if_pos hL, if_neg hc]
        have hFx : (Em.lngMin + Em.lngMax) / 2 ≤ F.lngMin := by
          have h := hmono.1
          rw [hsx] at h
          exact h
        have hcm : ¬ ((F.lngMin + F.lngMax) / 2 < (Em.lngMin + Em.lngMax) / 2) := by
          push_neg
          linarith
        unfold encodeStep
        simp only [if_pos hL, if_neg hc, if_neg hcm]
    · by_cases hc : lat < (Em.latMin + Em.latMax) / 2
      · have hsx : (encodeStep lat lng Em).latMax = (Em.latMin + Em.latMax) / 2 := by
          unfold encodeStep
          rw [if_neg hL, if_pos hc]
        have hFx : F.latMax ≤ (Em.latMin + Em.latMax) / 2 := by
          have h := hmono.2.2.2
          rw [hsx] at h
          exact h
        have hcm : (F.latMin + F.latMax) / 2 < (Em.latMin + Em.latMax) / 2 := by
          linarith
        unfold encodeStep
        simp only [if_neg hL, if_pos hc, if_pos hcm]
      · have hsx : (encodeStep lat lng Em).latMin = (Em.latMin + Em.latMax) / 2 := by
          unfold encodeStep
          rw [if_neg hL, if_neg hc]
        have hFx : (Em.latMin + Em.latMax) / 2 ≤ F.latMin := by
          have h := hmono.2.2.1
          rw [hsx] at h
          exact h
        have hcm : ¬ ((F.latMin + F.latMax) / 2 < (Em.latMin + Em.latMax) / 2) := by
          push_neg
          linarith
        unfold encodeStep
        simp only [if_neg hL, if_neg hc, if_neg hcm]

/-- Claim C3: for every valid coordinate pair and every length `L ≥ 1`, the
point decode of `encode(coord, L)` lies within the bounds of the interval
obtained by decoding `encode(coord, L)`, and re-encoding that midpoint at
length `L` yields the identical geohash string. -/
theorem c3_round_trip (lat lng : ℚ) (L : ℕ)
    (h1 : -90 ≤ lat) (h2 : lat ≤ 90) (h3 : -180 ≤ lng) (h4 : lng ≤ 180)
    (_h5 : 1 ≤ L) :
    (decode_to_interval (encode lat lng L)).1.1 ≤ (decode (encode lat lng L)).1 ∧
      (decode (encode lat lng L)).1 ≤ (decode_to_interval (encode lat lng L)).1.2 ∧
      (decode_to_interval (encode lat lng L)).2.1 ≤ (decode (encode lat lng L)).2 ∧
      (decode (encode lat lng L)).2 ≤ (decode_to_interval (encode lat lng L)).2.2 ∧
      encode (decode (encode lat lng L)).1 (decode (encode lat lng L)).2 L
        = encode lat lng L := by
  have hn : encode lat lng L = _encode lat lng L := by
    unfold encode
    rw [norm_lat_id lat h1 h2, norm_angle_id lng h3 h4]
  have hdec := decode_to_interval_encode lat lng L
  have hinv : EncodeInv (encodeLoop lat lng (L * 5) encodeInit) :=
    encodeLoop_inv lat lng (L * 5) encodeInit encodeInit_inv
  obtain ⟨g1, g2, g3, g4, g5, g6⟩ := hinv
  have hdecode : decode (_encode lat lng L)
      = (((encodeLoop lat lng (L * 5) encodeInit).latMin
          + (encodeLoop lat lng (L * 5) encodeInit).latMax) / 2,
        ((encodeLoop lat lng (L * 5) encodeInit).lngMin
          + (encodeLoop lat lng (L * 5) encodeInit).lngMax) / 2) := by
    unfold decode
    rw [hdec]
  rw [hn, hdec, hdecode]
  dsimp only
  refine ⟨by linarith, by linarith, by linarith, by linarith, ?_⟩
  have henc2 : encode
      (((encodeLoop lat lng (L * 5) encodeInit).latMin
        + (encodeLoop lat lng (L * 5) encodeInit).latMax) / 2)
      (((encodeLoop lat lng (L * 5) encodeInit).lngMin
        + (encodeLoop lat lng (L * 5) encodeInit).lngMax) / 2) L
      = _encode
          (((encodeLoop lat lng (L * 5) encodeInit).latMin
            + (encodeLoop lat lng (L * 5) encodeInit).latMax) / 2)
          (((encodeLoop lat lng (L * 5) encodeInit).lngMin
            + (encodeLoop lat lng (L * 5) encodeInit).lngMax) / 2) L := by
    unfold encode
    rw [norm_lat_id _ (by linarith) (by linarith),
      norm_angle_id _ (by linarith) (by linarith)]
  rw [henc2]
  simp only [_encode]
  rw [reencode_eq lat lng (L * 5) (L * 5) (le_refl _)]

/-- Witness for `c3_round_trip` at latitude 0, longitude 0, length 1. -/
theorem c3_round_trip_witness :
    ((-90 : ℚ) ≤ 0 ∧ (0 : ℚ) ≤ 90 ∧ (-180 : ℚ) ≤ 0 ∧ (0 : ℚ) ≤ 180 ∧ 1 ≤ 1) ∧
      ((decode_to_interval (encode 0 0 1)).1.1 ≤ (decode (encode 0 0 1)).1 ∧
        (decode (encode 0 0 1)).1 ≤ (decode_to_interval (encode 0 0 1)).1.2 ∧
        (decode_to_interval (encode 0 0 1)).2.1 ≤ (decode (encode 0 0 1)).2 ∧
        (decode (encode 0 0 1)).2 ≤ (decode_to_interval (encode 0 0 1)).2.2 ∧
        encode (decode (encode 0 0 1)).1 (decode (encode 0 0 1)).2 1
          = encode 0 0 1) :=
  ⟨⟨by norm_num, by norm_num, by norm_num, by norm_num, le_refl 1⟩,
    c3_round_trip 0 0 1 (by norm_num) (by norm_num) (by norm_num) (by norm_num)
      (le_refl 1)⟩

example : _normalize_angle_180 (-190) = -170 := by decide
example : _normalize_angle_180 (-540) = -180 := by decide
example : _normalize_lat 370 = 10 := by decide
example : _normalize_angle_180 720 = 0 := by decide
example : _normalize_lat (-450) = -90 := by decide
example : _encode 0 0 1 = "s".toList := by decide
example : encode 0 0 11 = "s0000000000".toList := by decide
example : encode (-90) (-180) 11 = "00000000000".toList := by decide
example : encode 90 180 11 = "zzzzzzzzzzz".toList := by decide
example : decode ("ezs42".toList) = (87255/2048, -11475/2048) := by decide

end Geohash
